import Mathlib

/-!
Verification development for the Earthly News Monitor pipeline
(`dashboard.py`): a shallow embedding of its fuzzy matching, HTTP retry
logic, paged fetch loop, URL deduplication, relevance filtering, batch
summarization and quota estimate, together with theorems about them.
Dictionary fields that may be absent are modelled as `Option`; the
third-party similarity scores of the `rapidfuzz` library are abstract
parameters of the embedding.
-/

namespace EarthlyNews

/-- An article record as consumed by the pipeline.  Fields mirror the JSON
dictionary returned by the search API; a key that may be missing from the
dictionary is an `Option` with `none` for a missing key. -/
structure Article where
  url : Option String
  title : Option String
  body : Option String
deriving Repr, DecidableEq

/-- One keyword item as produced by `load_keywords`: a keyword and an
optional developer qualifier (`None` in the Python dict when blank). -/
structure KeywordItem where
  keyword : String
  developer : Option String
deriving Repr, DecidableEq

/-- Python truthiness of an optional string: `None` and the empty string
are falsy, every other string is truthy. -/
def strTruthy : Option String → Bool
  | none => false
  | some s => !s.isEmpty

/-- Whether the first list is an initial run of the second. -/
def leadsWith : List Char → List Char → Bool
  | [], _ => true
  | _ :: _, [] => false
  | a :: as, b :: bs => a == b && leadsWith as bs

/-- Whether `pat` occurs as a contiguous run inside `l`. -/
def hasRun : List Char → List Char → Bool
  | [], pat => pat.isEmpty
  | a :: tail, pat => leadsWith pat (a :: tail) || hasRun tail pat

/-- The Python substring test `pat in text` on strings. -/
def strIn (pat text : String) : Bool :=
  hasRun text.data pat.data

/-- The Python `str.lower` used by the pipeline, as a character map.  It
agrees with `String.toLower` but reduces in the kernel, `String.map`
being defined by well-founded recursion on byte positions. -/
def lowerStr (s : String) : String :=
  ⟨s.data.map Char.toLower⟩

/-- The three `rapidfuzz` similarity scores used by `fuzzy_match`
(`fuzz.ratio`, the sliding-window ratio and the token-set ratio).  The
library is external to the repository, so the scores are abstract
parameters of the embedding, valued on the same 0 to 100 scale. -/
structure FuzzFns where
  ratio : String → String → ℚ
  ratioWindow : String → String → ℚ
  ratioTokenSet : String → String → ℚ

/-- `fuzzy_match` from `dashboard.py`: lowercase both sides, accept
immediately on a literal substring hit, otherwise accept when any of the
three similarity scores reaches the threshold. -/
def fuzzy_match (fz : FuzzFns) (text keyword : String) (threshold : ℚ) : Bool :=
  let text_lower := lowerStr text
  let key_lower := lowerStr keyword
  if strIn key_lower text_lower then true
  else
    decide (fz.ratio key_lower text_lower ≥ threshold) ||
    decide (fz.ratioWindow key_lower text_lower ≥ threshold) ||
    decide (fz.ratioTokenSet key_lower text_lower ≥ threshold)

/-- One step of the deduplicating comprehension at the end of
`fetch_articles_for_items`: `seen` holds the urls already kept; an article
is kept exactly when its url is truthy and not yet seen, and its url is
then added to `seen`. -/
def dedupe_go (seen : List String) : List Article → List Article
  | [] => []
  | art :: rest =>
    if strTruthy art.url && !(seen.contains (art.url.getD "")) then
      art :: dedupe_go (art.url.getD "" :: seen) rest
    else
      dedupe_go seen rest

/-- The deduplication step of `fetch_articles_for_items`
(`seen_urls` starts out empty). -/
def dedupe (articles : List Article) : List Article :=
  dedupe_go [] articles

/-- The sidebar Estimate API Usage computation: clamp the item total to
twice the per-run keyword cap, then multiply by the pages per item. -/
def estimate_calls (total_items max_keywords_per_run max_pages_per_item : Nat) : Nat :=
  let estimated_items := min total_items (max_keywords_per_run * 2)
  estimated_items * max_pages_per_item

/-- The lowercased `title + " " + body` text that `filter_relevant`
matches against; missing fields default to the empty string. -/
def article_text (art : Article) : String :=
  lowerStr ((art.title.getD "") ++ " " ++ (art.body.getD ""))

/-- Whether one keyword item accepts the given article text inside
`filter_relevant`: with a truthy developer both the keyword and the
developer must match, otherwise the keyword alone decides. -/
def item_matches (fz : FuzzFns) (text : String) (item : KeywordItem) (threshold : ℚ) : Bool :=
  let keyword_match := fuzzy_match fz text item.keyword threshold
  if strTruthy item.developer then
    keyword_match && fuzzy_match fz text (item.developer.getD "") threshold
  else
    keyword_match

/-- `filter_relevant` from `dashboard.py`: keep the articles accepted by
some keyword item, in input order (the Python loop appends a matching
article once and short-circuits across items). -/
def filter_relevant (fz : FuzzFns) (articles : List Article)
    (keyword_items : List KeywordItem) (threshold : ℚ) : List Article :=
  articles.filter (fun art =>
    keyword_items.any (fun item => item_matches fz (article_text art) item threshold))

/-- One observable HTTP exchange of `do_request`: either a response with a
status code, raw text body and parsed JSON payload, or a transport-level
failure (`requests.RequestException`). -/
inductive HttpResp where
  | resp (status : Nat) (body : String) (json : String)
  | netFail (msg : String)
deriving Repr, DecidableEq

/-- The sidebar error message emitted by `do_request` when it fails: the
quota message of the 403 branch, the status-plus-excerpt message of the
`HTTPError` handler, or the message of the `RequestException` handler. -/
inductive SideMsg where
  | quotaMsg
  | httpMsg (status : Nat) (excerpt : String)
  | failMsg (msg : String)
deriving Repr, DecidableEq

/-- The observable outcome of a `do_request` invocation: the backoff
sleeps performed in order, the number of HTTP calls issued, the JSON
result (`None` on every failure path) and the error message shown, if
any. -/
structure ReqOutcome where
  sleeps : List Nat
  calls : Nat
  result : Option String
  err : Option SideMsg
deriving Repr, DecidableEq

/-- `do_request` from `dashboard.py`.  `http k` is the response the server
gives to the attempt carrying retry counter `k`.  A 429 or 503 status with
the counter below 3 sleeps `2 ^ (retry + 1)` seconds and re-enters with
the counter bumped; a 403 yields the quota message at once; any other
status of 400 and above trips `raise_for_status` and yields the
status-plus-excerpt message with the body cut to 200 characters; otherwise
the JSON payload is returned. -/
def do_request (http : Nat → HttpResp) (retry : Nat) : ReqOutcome :=
  match http retry with
  | .netFail msg => ⟨[], 1, none, some (.failMsg msg)⟩
  | .resp status body json =>
    if h : (status = 429 ∨ status = 503) ∧ retry < 3 then
      let wait := 2 ^ (retry + 1)
      let rest := do_request http (retry + 1)
      ⟨wait :: rest.sleeps, rest.calls + 1, rest.result, rest.err⟩
    else if status = 403 then
      ⟨[], 1, none, some .quotaMsg⟩
    else if 400 ≤ status then
      ⟨[], 1, none, some (.httpMsg status (body.take 200))⟩
    else
      ⟨[], 1, some json, none⟩
termination_by 3 - retry
decreasing_by omega

/-- The paging loop of `fetch_articles_for_items` for one keyword item,
fetching pages from `page` on with `remaining` pages still allowed.
`src p` is the result list extracted from the page-`p` response (`none`
when `do_request` came back falsy).  The loop breaks on a falsy response,
on an empty result page, and after appending a page shorter than
`max_articles_per_call`.  Returns the articles appended to the aggregate
and the number of calls issued. -/
def fetch_pages_go (src : Nat → Option (List Article)) (max_articles_per_call : Nat) :
    Nat → Nat → List Article × Nat
  | _, 0 => ([], 0)
  | page, remaining + 1 =>
    match src page with
    | none => ([], 1)
    | some results =>
      if results.isEmpty then ([], 1)
      else if results.length < max_articles_per_call then (results, 1)
      else
        let rest := fetch_pages_go src max_articles_per_call (page + 1) remaining
        (results ++ rest.1, rest.2 + 1)

/-- The paging loop started at page 1 with the full page budget. -/
def fetch_pages (src : Nat → Option (List Article))
    (max_pages_per_item max_articles_per_call : Nat) : List Article × Nat :=
  fetch_pages_go src max_articles_per_call 1 max_pages_per_item

/-- The per-item loop of `fetch_articles_for_items`: each item contributes
the articles of its paging loop to `all_results`, in order. -/
def fetch_all_go (src : KeywordItem → Nat → Option (List Article))
    (max_pages_per_item max_articles_per_call : Nat) : List KeywordItem → List Article
  | [] => []
  | item :: rest =>
    (fetch_pages (src item) max_pages_per_item max_articles_per_call).1 ++
      fetch_all_go src max_pages_per_item max_articles_per_call rest

/-- The raw aggregate `all_results` built by `fetch_articles_for_items`
before deduplication: items are truncated to `max_keywords_per_run`
first, then fetched one after the other. -/
def fetch_all (src : KeywordItem → Nat → Option (List Article)) (items : List KeywordItem)
    (max_keywords_per_run max_pages_per_item max_articles_per_call : Nat) : List Article :=
  fetch_all_go src max_pages_per_item max_articles_per_call
    (items.take max_keywords_per_run)

/-- `fetch_articles_for_items` end to end: the early return on an empty
item list, then the fetch loop followed by the dedup comprehension. -/
def fetch_articles_for_items (src : KeywordItem → Nat → Option (List Article))
    (items : List KeywordItem)
    (max_keywords_per_run max_pages_per_item max_articles_per_call : Nat) : List Article :=
  match items with
  | [] => []
  | _ :: _ =>
    dedupe (fetch_all src items max_keywords_per_run max_pages_per_item max_articles_per_call)

/-- Python `s.split(":", 1)[1]`: everything after the first colon. -/
def afterFirstColon (s : String) : String :=
  match s.splitOn ":" with
  | [] => ""
  | [_] => ""
  | _ :: rest => String.intercalate ":" rest

/-- The line-scanning loop of `batch_summarize`: a line starting (case
folded) with SUMMARY flushes the current accumulator and opens a new one
with the text after the first colon (empty when there is none); any other
line is appended to the open accumulator.  Returns the flushed summaries
and the accumulator still open at the end. -/
def parse_go : List String → List String → Option String → List String × Option String
  | [], summaries, cur => (summaries, cur)
  | ln :: rest, summaries, cur =>
    if ln.toUpper.startsWith "SUMMARY" then
      let flushed := match cur with
        | some c => summaries ++ [c.trim]
        | none => summaries
      let opened := if ln.contains ':' then (afterFirstColon ln).trim else ""
      parse_go rest flushed (some opened)
    else
      match cur with
      | some c => parse_go rest summaries (some (c ++ " " ++ ln))
      | none => parse_go rest summaries none

/-- The fixed placeholder used when the parsed summaries fall short of the
batch size. -/
def placeholder : String := "Summary not available."

/-- The summaries recovered from one model response text in
`batch_summarize`: strip and drop blank lines (newlines are modelled as
the LF character), run the scanning loop, flush a truthy trailing
accumulator, and if nothing at all was recovered fall back to splitting
the raw text on blank-line boundaries. -/
def parse_summaries (txt : String) : List String :=
  let lines := ((txt.splitOn "\n").map String.trim).filter (fun l => !l.isEmpty)
  let scanned := parse_go lines [] none
  let flushed := match scanned.2 with
    | some c => if !c.isEmpty then scanned.1 ++ [c.trim] else scanned.1
    | none => scanned.1
  if flushed.isEmpty then
    ((txt.splitOn "\n\n").map String.trim).filter (fun l => !l.isEmpty)
  else
    flushed

/-- The per-batch prompt built by `batch_summarize`: the instruction
header, one SUMMARY format line per article, and each article title and
body with the body cut to 800 characters; a missing title renders as
Untitled and a falsy body as the empty string. -/
def build_prompt (group : List Article) (sentences : Nat) : String :=
  let head :=
    ["Summarize each article below in exactly " ++ toString sentences ++ " sentences.",
     "Respond ONLY in this format:"] ++
    (List.range group.length).map (fun j => "SUMMARY " ++ toString (j + 1) ++ ": <summary>") ++
    ["", "ARTICLES:"]
  let items := group.enum.map (fun p =>
    "Article " ++ toString (p.1 + 1) ++ " — Title: " ++ p.2.title.getD "Untitled" ++
      "\nBody: " ++ (p.2.body.getD "").take 800 ++ "\n")
  String.intercalate "\n" (head ++ items)

/-- Handling of one batch in `batch_summarize`: invoke the model on the
batch prompt; on an exception emit one error-excerpt placeholder per
article of the batch; otherwise parse the response text (a `None` content
counts as empty), pad a shortfall with the fixed placeholder and truncate
extras to the batch size. -/
def summarize_batch (model : String → Except String (Option String))
    (group : List Article) (sentences : Nat) : List String :=
  match model (build_prompt group sentences) with
  | .error e => group.map (fun _ => "Summary unavailable: " ++ e.take 50)
  | .ok content =>
    let txt := content.getD ""
    let summaries := parse_summaries txt
    (summaries ++ List.replicate (group.length - summaries.length) placeholder).take
      group.length

/-- `batch_summarize` from `dashboard.py`: the early return on an empty
input, then one model round trip per chunk of 5 articles. -/
def batch_summarize (model : String → Except String (Option String))
    (articles : List Article) (sentences : Nat) : List String :=
  match articles with
  | [] => []
  | a :: rest =>
    summarize_batch model ((a :: rest).take 5) sentences ++
      batch_summarize model ((a :: rest).drop 5) sentences
termination_by articles.length
decreasing_by simp [List.length_drop]; omega

/-- A degenerate score assignment used to instantiate theorems about the
fuzzy pipeline at concrete inputs. -/
def fzZero : FuzzFns :=
  ⟨fun _ _ => 0, fun _ _ => 0, fun _ _ => 0⟩

theorem leadsWith_append (p t : List Char) : leadsWith p (p ++ t) = true := by
  induction p with
  | nil => rfl
  | cons a as ih => simp [leadsWith, ih]

theorem hasRun_nil_pat (l : List Char) : hasRun l [] = true := by
  cases l with
  | nil => rfl
  | cons a tail => simp [hasRun, leadsWith]

theorem hasRun_append (s p t : List Char) : hasRun (s ++ p ++ t) p = true := by
  induction s with
  | nil =>
    cases p with
    | nil => simpa using hasRun_nil_pat t
    | cons a as => simpa [hasRun] using Or.inl (leadsWith_append (a :: as) t)
  | cons c s' ih =>
    have h2 : hasRun (c :: (s' ++ p ++ t)) p = true := by
      show (leadsWith p (c :: (s' ++ p ++ t)) || hasRun (s' ++ p ++ t) p) = true
      rw [ih, Bool.or_true]
    simpa using h2

/-- C5: `fuzzy_match` returns `true` whenever the lowercased keyword
occurs literally as a contiguous substring of the lowercased text, for
every threshold and every choice of similarity scores. -/
theorem fuzzy_match_of_substring (fz : FuzzFns) (text keyword : String) (threshold : ℚ)
    (h : ∃ s t : String, s ++ lowerStr keyword ++ t = lowerStr text) :
    fuzzy_match fz text keyword threshold = true := by
  obtain ⟨s, t, hst⟩ := h
  have hdata : (lowerStr text).data = s.data ++ (lowerStr keyword).data ++ t.data := by
    rw [← hst]
    simp
  have hin : strIn (lowerStr keyword) (lowerStr text) = true := by
    unfold strIn
    rw [hdata]
    exact hasRun_append _ _ _
  simp [fuzzy_match, hin]

theorem fuzzy_match_of_substring_witness :
    fuzzy_match fzZero "Kasigau forest" "Kasigau" 90 = true :=
  fuzzy_match_of_substring fzZero "Kasigau forest" "Kasigau" 90
    ⟨"", " forest", by decide⟩

/-- C10: the output of `filter_relevant` is a sublist of its input: every
retained article occurs in the input, relative order is preserved, and no
input occurrence is retained more than once. -/
theorem filter_relevant_sublist (fz : FuzzFns) (articles : List Article)
    (keyword_items : List KeywordItem) (threshold : ℚ) :
    (filter_relevant fz articles keyword_items threshold).Sublist articles :=
  List.filter_sublist articles

/-- C8 counterexample: at totalItems 120, maxKeywordsPerRun 50 and
maxPagesPerItem 2 the sidebar estimate is 200, not min 120 50 * 2 = 100
as the claim states. -/
theorem estimate_calls_counterexample :
    ¬ estimate_calls 120 50 2 = min 120 50 * 2 := by decide

/-- C8 amended: the estimate equals
min totalItems (maxKeywordsPerRun * 2) * maxPagesPerItem, the keyword cap
being doubled before clamping; in particular it returns 200, not 100, on
totalItems 120, maxKeywordsPerRun 50, maxPagesPerItem 2. -/
theorem estimate_calls_spec (total_items max_keywords_per_run max_pages_per_item : Nat) :
    estimate_calls total_items max_keywords_per_run max_pages_per_item =
      min total_items (max_keywords_per_run * 2) * max_pages_per_item ∧
    estimate_calls 120 50 2 = 200 :=
  ⟨rfl, rfl⟩

theorem item_matches_iff (fz : FuzzFns) (text : String) (item : KeywordItem) (threshold : ℚ) :
    item_matches fz text item threshold = true ↔
      fuzzy_match fz text item.keyword threshold = true ∧
      ∀ d, item.developer = some d → d ≠ "" →
        fuzzy_match fz text d threshold = true := by
  cases hdev : item.developer with
  | none => simp [item_matches, strTruthy, hdev]
  | some d =>
    by_cases hd : d = ""
    · subst hd
      simp [item_matches, strTruthy, hdev, String.isEmpty_iff]
    · have htr : strTruthy (some d) = true := by
        have hemp : d.isEmpty = false := by
          simp only [← Bool.not_eq_true, String.isEmpty_iff]
          exact hd
        simp [strTruthy, hemp]
      simp only [item_matches, hdev, htr, if_true, Option.getD_some, Bool.and_eq_true,
        Option.some.injEq]
      constructor
      · rintro ⟨h1, h2⟩
        refine ⟨h1, fun d' hd' _ => ?_⟩
        subst hd'
        exact h2
      · rintro ⟨h1, h2⟩
        exact ⟨h1, h2 d rfl hd⟩

/-- C2: `filter_relevant` retains an article exactly when some keyword
item matches it: the keyword must fuzzy-match the lowercased
title-space-body text and, when the item carries a present (non-blank)
developer, the developer must independently fuzzy-match it as well. -/
theorem filter_relevant_mem_iff (fz : FuzzFns) (articles : List Article)
    (keyword_items : List KeywordItem) (threshold : ℚ) (art : Article) :
    art ∈ filter_relevant fz articles keyword_items threshold ↔
      art ∈ articles ∧ ∃ item ∈ keyword_items,
        fuzzy_match fz (article_text art) item.keyword threshold = true ∧
        ∀ d, item.developer = some d → d ≠ "" →
          fuzzy_match fz (article_text art) d threshold = true := by
  simp only [filter_relevant, List.mem_filter, List.any_eq_true, item_matches_iff]

theorem isEmpty_eq_false_iff (s : String) : s.isEmpty = false ↔ ¬ s = "" := by
  constructor
  · intro h1 h2
    subst h2
    exact absurd h1 (by decide)
  · intro h1
    cases he : s.isEmpty
    · rfl
    · exact absurd ((String.isEmpty_iff s).mp he) h1

theorem strTruthy_iff (o : Option String) :
    strTruthy o = true ↔ ∃ v, o = some v ∧ v ≠ "" := by
  cases o with
  | none => simp [strTruthy]
  | some v =>
    simp only [strTruthy, Bool.not_eq_true', isEmpty_eq_false_iff, Option.some.injEq]
    constructor
    · intro h
      exact ⟨v, rfl, h⟩
    · rintro ⟨w, hw, hne⟩
      subst hw
      exact hne

theorem dedupe_go_sublist (arts : List Article) :
    ∀ seen, (dedupe_go seen arts).Sublist arts := by
  induction arts with
  | nil =>
    intro seen
    simp [dedupe_go]
  | cons art rest ih =>
    intro seen
    simp only [dedupe_go]
    split
    · exact (ih _).cons₂ art
    · exact (ih _).cons art

theorem dedupe_go_countP_of_mem (u : String) (arts : List Article) :
    ∀ seen, u ∈ seen →
      (dedupe_go seen arts).countP (fun a => a.url == some u) = 0 := by
  induction arts with
  | nil =>
    intro seen _
    simp [dedupe_go]
  | cons art rest ih =>
    intro seen hu
    simp only [dedupe_go]
    split
    · rename_i hcond
      have hne : (art.url == some u) = false := by
        rw [beq_eq_false_iff_ne]
        intro hurl
        rw [hurl] at hcond
        simp only [Option.getD_some, Bool.and_eq_true, Bool.not_eq_eq_eq_not, Bool.not_true,
          List.contains, List.elem_eq_mem, decide_eq_false_iff_not] at hcond
        exact hcond.2 hu
      rw [List.countP_cons]
      simp only [hne, Bool.false_eq_true, if_false, Nat.add_zero]
      exact ih _ (List.mem_cons_of_mem _ hu)
    · exact ih _ hu

theorem notMem_cons_of_kept {u : String} {art : Article} {seen : List String}
    (hurl : ¬ art.url = some u) (hu_seen : u ∉ seen)
    (hkeep : (strTruthy art.url && !(seen.contains (art.url.getD ""))) = true) :
    u ∉ art.url.getD "" :: seen := by
  intro hmem
  rcases List.mem_cons.mp hmem with heq | hmem2
  · obtain ⟨v, hv, _⟩ := (strTruthy_iff art.url).mp (Bool.and_eq_true .. ▸ hkeep).1
    rw [hv, Option.getD_some] at heq
    exact hurl (by rw [hv, heq])
  · exact hu_seen hmem2

theorem kept_cond_of_url {u : String} {art : Article} {seen : List String}
    (hurl : art.url = some u) (hu : u ≠ "") (hu_seen : u ∉ seen) :
    (strTruthy art.url && !(seen.contains (art.url.getD ""))) = true := by
  rw [hurl]
  simp only [Option.getD_some, Bool.and_eq_true, Bool.not_eq_eq_eq_not, Bool.not_true,
    List.contains, List.elem_eq_mem, decide_eq_false_iff_not]
  exact ⟨(strTruthy_iff (some u)).mpr ⟨u, rfl, hu⟩, hu_seen⟩

theorem dedupe_go_countP (u : String) (hu : u ≠ "") (arts : List Article) :
    ∀ seen, u ∉ seen →
      (dedupe_go seen arts).countP (fun a => a.url == some u) =
        min 1 (arts.countP (fun a => a.url == some u)) := by
  induction arts with
  | nil =>
    intro seen _
    simp [dedupe_go]
  | cons art rest ih =>
    intro seen hu_seen
    by_cases hurl : art.url = some u
    · have hcond := kept_cond_of_url hurl hu hu_seen
      simp only [dedupe_go, hcond, if_true]
      rw [List.countP_cons, List.countP_cons,
        dedupe_go_countP_of_mem u rest _ (by
          rw [hurl, Option.getD_some]
          exact List.mem_cons_self _ _)]
      simp only [hurl, beq_self_eq_true, if_true]
      omega
    · have hne : (art.url == some u) = false := by
        rw [beq_eq_false_iff_ne]
        exact hurl
      cases hkeep : (strTruthy art.url && !(seen.contains (art.url.getD ""))) with
      | true =>
        simp only [dedupe_go, hkeep, if_true]
        rw [List.countP_cons, List.countP_cons]
        simp only [hne, Bool.false_eq_true, if_false, Nat.add_zero]
        exact ih _ (notMem_cons_of_kept hurl hu_seen hkeep)
      | false =>
        simp only [dedupe_go, hkeep, Bool.false_eq_true, if_false]
        rw [List.countP_cons]
        simp only [hne, Bool.false_eq_true, if_false, Nat.add_zero]
        exact ih _ hu_seen

theorem dedupe_go_find (u : String) (hu : u ≠ "") (arts : List Article) :
    ∀ seen, u ∉ seen →
      (dedupe_go seen arts).find? (fun a => a.url == some u) =
        arts.find? (fun a => a.url == some u) := by
  induction arts with
  | nil =>
    intro seen _
    simp [dedupe_go]
  | cons art rest ih =>
    intro seen hu_seen
    by_cases hurl : art.url = some u
    · have hcond := kept_cond_of_url hurl hu hu_seen
      simp only [dedupe_go, hcond, if_true]
      rw [List.find?, List.find?]
      simp [hurl]
    · have hne : (art.url == some u) = false := by
        rw [beq_eq_false_iff_ne]
        exact hurl
      cases hkeep : (strTruthy art.url && !(seen.contains (art.url.getD ""))) with
      | true =>
        simp only [dedupe_go, hkeep, if_true]
        rw [List.find?, List.find?]
        simp only [hne]
        exact ih _ (notMem_cons_of_kept hurl hu_seen hkeep)
      | false =>
        simp only [dedupe_go, hkeep, Bool.false_eq_true, if_false]
        rw [List.find?]
        simp only [hne]
        exact ih _ hu_seen

/-- C1: deduplication keeps, for each distinct non-empty url of the
input, exactly one article, namely the first article of the input carrying
that url; and the output is a sublist of the input, so the retained
articles keep their first-seen relative order. -/
theorem dedupe_spec (arts : List Article) :
    (dedupe arts).Sublist arts ∧
    ∀ u : String, u ≠ "" →
      (dedupe arts).countP (fun a => a.url == some u) =
        min 1 (arts.countP (fun a => a.url == some u)) ∧
      (dedupe arts).find? (fun a => a.url == some u) =
        arts.find? (fun a => a.url == some u) := by
  refine ⟨dedupe_go_sublist arts [], fun u hu => ⟨?_, ?_⟩⟩
  · exact dedupe_go_countP u hu arts [] (by simp)
  · exact dedupe_go_find u hu arts [] (by simp)

/-- Two articles sharing one url, used to instantiate the dedup theorems. -/
def artA : Article := ⟨some "https://x", some "T1", some "B1"⟩

/-- Second article with the url of `artA`. -/
def artB : Article := ⟨some "https://x", some "T2", some "B2"⟩

theorem dedupe_spec_witness :
    (dedupe [artA, artB]).Sublist [artA, artB] ∧
    (dedupe [artA, artB]).countP (fun a => a.url == some "https://x") = 1 ∧
    (dedupe [artA, artB]).find? (fun a => a.url == some "https://x") = some artA := by
  have h := dedupe_spec [artA, artB]
  have h2 := h.2 "https://x" (by decide)
  refine ⟨h.1, ?_, ?_⟩
  · rw [h2.1]
    decide
  · rw [h2.2]
    decide

/-- An article with no url key at all. -/
def artNoUrl : Article := ⟨none, some "T3", some "B3"⟩

/-- C4 counterexample: an article with a missing url does not pass through
deduplication; on the one-element input it is dropped entirely and the
output is empty. -/
theorem dedupe_urlless_counterexample :
    ¬ artNoUrl ∈ dedupe [artNoUrl] ∧ dedupe [artNoUrl] = [] := by
  decide

theorem dedupe_go_mem_truthy (arts : List Article) :
    ∀ seen a, a ∈ dedupe_go seen arts → strTruthy a.url = true := by
  induction arts with
  | nil =>
    intro seen a ha
    simp [dedupe_go] at ha
  | cons art rest ih =>
    intro seen a ha
    rw [dedupe_go] at ha
    split at ha
    · rename_i hcond
      rcases List.mem_cons.mp ha with heq | hmem
      · subst heq
        exact (Bool.and_eq_true .. ▸ hcond).1
      · exact ih _ _ hmem
    · exact ih _ _ ha

/-- C4 amended: every article whose url is missing or empty is removed by
the deduplication step; it never appears in the output. -/
theorem dedupe_drops_urlless (arts : List Article) (art : Article)
    (h : art.url = none ∨ art.url = some "") :
    ¬ art ∈ dedupe arts := by
  intro hmem
  have htr := dedupe_go_mem_truthy arts [] art hmem
  rcases h with h | h <;> rw [h] at htr <;> exact absurd htr (by decide)

theorem dedupe_drops_urlless_witness :
    ¬ artNoUrl ∈ dedupe [artA, artNoUrl] :=
  dedupe_drops_urlless [artA, artNoUrl] artNoUrl (Or.inl rfl)

theorem do_request_rate_step (http : Nat → HttpResp) (retry : Nat) (h3 : retry < 3)
    {status : Nat} {b j : String} (hs : status = 429 ∨ status = 503)
    (hr : http retry = .resp status b j) :
    do_request http retry =
      ⟨2 ^ (retry + 1) :: (do_request http (retry + 1)).sleeps,
       (do_request http (retry + 1)).calls + 1,
       (do_request http (retry + 1)).result,
       (do_request http (retry + 1)).err⟩ := by
  rcases hs with hs | hs <;> subst hs <;> rw [do_request.eq_def, hr] <;> simp [h3]

theorem do_request_rate_exhausted (http : Nat → HttpResp)
    {status : Nat} {b j : String} (hs : status = 429 ∨ status = 503)
    (hr : http 3 = .resp status b j) :
    do_request http 3 = ⟨[], 1, none, some (.httpMsg status (b.take 200))⟩ := by
  rcases hs with hs | hs <;> subst hs <;> rw [do_request.eq_def, hr] <;> simp

theorem do_request_quota (http : Nat → HttpResp) {b j : String}
    (hr : http 0 = .resp 403 b j) :
    do_request http 0 = ⟨[], 1, none, some .quotaMsg⟩ := by
  rw [do_request.eq_def, hr]
  simp

theorem do_request_calls_le (http : Nat → HttpResp) :
    ∀ fuel retry, 3 - retry ≤ fuel → (do_request http retry).calls ≤ (3 - retry) + 1 := by
  intro fuel
  induction fuel with
  | zero =>
    intro retry hf
    rw [do_request.eq_def]
    cases hr : http retry with
    | netFail msg => simp
    | resp status b j =>
      have hc : ¬ ((status = 429 ∨ status = 503) ∧ retry < 3) := by omega
      dsimp only
      rw [dif_neg hc]
      split
      · simp
      · split
        · simp
        · simp
  | succ n ihn =>
    intro retry hf
    rw [do_request.eq_def]
    cases hr : http retry with
    | netFail msg => simp
    | resp status b j =>
      by_cases hc : (status = 429 ∨ status = 503) ∧ retry < 3
      · dsimp only
        rw [dif_pos hc]
        have hrec := ihn (retry + 1) (by omega)
        have h3 := hc.2
        dsimp only
        omega
      · dsimp only
        rw [dif_neg hc]
        split
        · simp
        · split
          · simp
          · simp

/-- C6: on persistent 429 or 503 responses the request is retried 3 times
with backoff sleeps of exactly 2, 4 and 8 seconds (4 HTTP calls in all)
and ends in the rate-limited error outcome: no JSON result and an HTTP
error message carrying the rate-limit status; a 403 response yields the
quota-exceeded outcome at once, with no retry and no sleep; and no
response behavior ever leads to more than 4 attempts. -/
theorem do_request_spec (http : Nat → HttpResp) :
    ((∀ k, ∃ b j, http k = .resp 429 b j ∨ http k = .resp 503 b j) →
      (do_request http 0).sleeps = [2, 4, 8] ∧
      (do_request http 0).calls = 4 ∧
      (do_request http 0).result = none ∧
      ∃ s x, (do_request http 0).err = some (.httpMsg s x) ∧ (s = 429 ∨ s = 503)) ∧
    (∀ b j, http 0 = .resp 403 b j →
      do_request http 0 = ⟨[], 1, none, some .quotaMsg⟩) ∧
    (do_request http 0).calls ≤ 4 := by
  refine ⟨?_, fun b j h => do_request_quota http h, ?_⟩
  · intro hall
    obtain ⟨b0, j0, h0⟩ := hall 0
    obtain ⟨b1, j1, h1⟩ := hall 1
    obtain ⟨b2, j2, h2⟩ := hall 2
    obtain ⟨b3, j3, h3⟩ := hall 3
    obtain ⟨s0, hs0, hr0⟩ : ∃ s, (s = 429 ∨ s = 503) ∧ http 0 = .resp s b0 j0 := by
      rcases h0 with h | h
      exacts [⟨429, Or.inl rfl, h⟩, ⟨503, Or.inr rfl, h⟩]
    obtain ⟨s1, hs1, hr1⟩ : ∃ s, (s = 429 ∨ s = 503) ∧ http 1 = .resp s b1 j1 := by
      rcases h1 with h | h
      exacts [⟨429, Or.inl rfl, h⟩, ⟨503, Or.inr rfl, h⟩]
    obtain ⟨s2, hs2, hr2⟩ : ∃ s, (s = 429 ∨ s = 503) ∧ http 2 = .resp s b2 j2 := by
      rcases h2 with h | h
      exacts [⟨429, Or.inl rfl, h⟩, ⟨503, Or.inr rfl, h⟩]
    obtain ⟨s3, hs3, hr3⟩ : ∃ s, (s = 429 ∨ s = 503) ∧ http 3 = .resp s b3 j3 := by
      rcases h3 with h | h
      exacts [⟨429, Or.inl rfl, h⟩, ⟨503, Or.inr rfl, h⟩]
    have e3 := do_request_rate_exhausted http hs3 hr3
    have e2 := do_request_rate_step http 2 (by omega) hs2 hr2
    rw [e3] at e2
    simp only [] at e2
    have e1 := do_request_rate_step http 1 (by omega) hs1 hr1
    rw [e2] at e1
    simp only [] at e1
    have e0 := do_request_rate_step http 0 (by omega) hs0 hr0
    rw [e1] at e0
    simp only [] at e0
    rw [e0]
    refine ⟨by norm_num, by norm_num, rfl, s3, b3.take 200, rfl, hs3⟩
  · simpa using do_request_calls_le http 3 0 (by omega)

/-- A server that always answers 429. -/
def http429 : Nat → HttpResp := fun _ => .resp 429 "slow down" "null"

/-- A server whose first answer is 403. -/
def http403 : Nat → HttpResp := fun _ => .resp 403 "denied" "null"

theorem do_request_spec_witness :
    (do_request http429 0).sleeps = [2, 4, 8] ∧
    do_request http403 0 = ⟨[], 1, none, some .quotaMsg⟩ :=
  ⟨((do_request_spec http429).1 (fun _ => ⟨"slow down", "null", Or.inl rfl⟩)).1,
   (do_request_spec http403).2.1 "denied" "null" rfl⟩

theorem fetch_pages_go_calls_le (src : Nat → Option (List Article)) (mc : Nat) :
    ∀ remaining page, (fetch_pages_go src mc page remaining).2 ≤ remaining := by
  intro remaining
  induction remaining with
  | zero =>
    intro page
    simp [fetch_pages_go]
  | succ r ih =>
    intro page
    rw [fetch_pages_go]
    cases hs : src page with
    | none => simp
    | some results =>
      dsimp only
      split
      · simp
      · split
        · simp
        · dsimp only
          have := ih (page + 1)
          omega

theorem fetch_pages_go_calls_of_good (src : Nat → Option (List Article)) (mc : Nat) :
    ∀ remaining page,
      (∀ p, page ≤ p → p < page + remaining →
        ∃ l, src p = some l ∧ l ≠ [] ∧ mc ≤ l.length) →
      (fetch_pages_go src mc page remaining).2 = remaining := by
  intro remaining
  induction remaining with
  | zero =>
    intro page _
    simp [fetch_pages_go]
  | succ r ih =>
    intro page hgood
    obtain ⟨l, hl, hne, hlen⟩ := hgood page (Nat.le_refl _) (by omega)
    have hem : ¬ (l.isEmpty = true) := by simp [List.isEmpty_iff, hne]
    have hlt : ¬ (l.length < mc) := by omega
    rw [fetch_pages_go, hl]
    dsimp only
    rw [if_neg hem, if_neg hlt]
    dsimp only
    rw [ih (page + 1) (fun p h1 h2 => hgood p (by omega) (by omega))]

theorem fetch_pages_go_stop (src : Nat → Option (List Article)) (mc : Nat) :
    ∀ remaining page, (fetch_pages_go src mc page remaining).2 < remaining →
      ∃ k, (fetch_pages_go src mc page remaining).2 = k + 1 ∧
        (src (page + k) = none ∨
          ∃ l, src (page + k) = some l ∧ (l = [] ∨ l.length < mc)) := by
  intro remaining
  induction remaining with
  | zero =>
    intro page h
    simp [fetch_pages_go] at h
  | succ r ih =>
    intro page h
    cases hs : src page with
    | none =>
      rw [fetch_pages_go, hs]
      exact ⟨0, rfl, Or.inl (by rw [Nat.add_zero]; exact hs)⟩
    | some results =>
      by_cases hem : results.isEmpty = true
      · rw [fetch_pages_go, hs]
        dsimp only
        rw [if_pos hem]
        exact ⟨0, rfl, Or.inr ⟨results, by rw [Nat.add_zero]; exact hs,
          Or.inl (List.isEmpty_iff.mp hem)⟩⟩
      · by_cases hlt : results.length < mc
        · rw [fetch_pages_go, hs]
          dsimp only
          rw [if_neg hem, if_pos hlt]
          exact ⟨0, rfl, Or.inr ⟨results, by rw [Nat.add_zero]; exact hs, Or.inr hlt⟩⟩
        · rw [fetch_pages_go, hs] at h ⊢
          dsimp only at h ⊢
          rw [if_neg hem, if_neg hlt] at h ⊢
          dsimp only at h ⊢
          obtain ⟨k, hk, hb⟩ := ih (page + 1) (by omega)
          refine ⟨k + 1, by omega, ?_⟩
          have harith : page + 1 + k = page + (k + 1) := by omega
          rwa [harith] at hb

/-- C7: the paging loop issues at most `max_pages_per_item` calls; a
source serving exactly `max_articles_per_call` (positive) results on every
page gets exactly `max_pages_per_item` calls, and the loop terminates; an
early stop happens only because the page of the last call failed, came
back empty, or came back short; when no page within the budget does so,
the full budget of pages is fetched; and the per-item loop processes each
retained item independently, so a failure on one item never aborts the
remaining items. -/
theorem fetch_pages_spec (src : Nat → Option (List Article)) (mp mc : Nat) :
    (fetch_pages src mp mc).2 ≤ mp ∧
    ((∀ p, ∃ l, src p = some l ∧ l.length = mc) → 0 < mc →
      (fetch_pages src mp mc).2 = mp) ∧
    ((fetch_pages src mp mc).2 < mp →
      src (fetch_pages src mp mc).2 = none ∨
        ∃ l, src (fetch_pages src mp mc).2 = some l ∧ (l = [] ∨ l.length < mc)) ∧
    ((∀ p, 1 ≤ p → p ≤ mp → ∃ l, src p = some l ∧ l ≠ [] ∧ mc ≤ l.length) →
      (fetch_pages src mp mc).2 = mp) ∧
    ∀ (asrc : KeywordItem → Nat → Option (List Article)) (item : KeywordItem)
      (rest : List KeywordItem) (mk : Nat),
      fetch_all asrc (item :: rest) (mk + 1) mp mc =
        (fetch_pages (asrc item) mp mc).1 ++ fetch_all asrc rest mk mp mc := by
  refine ⟨fetch_pages_go_calls_le src mc mp 1, ?_, ?_, ?_, ?_⟩
  · intro hfull hmc
    apply fetch_pages_go_calls_of_good
    intro p _ _
    obtain ⟨l, hl, hlen⟩ := hfull p
    exact ⟨l, hl, List.length_pos.mp (by omega), by omega⟩
  · intro h
    rw [fetch_pages] at h ⊢
    obtain ⟨k, hk, hb⟩ := fetch_pages_go_stop src mc mp 1 h
    rw [hk]
    have harith : 1 + k = k + 1 := by omega
    rwa [harith] at hb
  · intro hgood
    apply fetch_pages_go_calls_of_good
    intro p h1 h2
    exact hgood p h1 (by omega)
  · intro asrc item rest mk
    rfl

/-- A source serving one full page forever, for page size 1. -/
def srcFull : Nat → Option (List Article) := fun _ => some [artA]

/-- A source whose every call fails. -/
def srcNone : Nat → Option (List Article) := fun _ => none

theorem fetch_pages_spec_witness :
    (fetch_pages srcFull 2 1).2 = 2 ∧
    (srcNone (fetch_pages srcNone 2 1).2 = none ∨
      ∃ l, srcNone (fetch_pages srcNone 2 1).2 = some l ∧ (l = [] ∨ l.length < 1)) := by
  constructor
  · exact (fetch_pages_spec srcFull 2 1).2.1 (fun p => ⟨[artA], rfl, rfl⟩) (by decide)
  · exact (fetch_pages_spec srcNone 2 1).2.2.1 (by decide)

theorem fetch_all_go_eq_flatMap (asrc : KeywordItem → Nat → Option (List Article))
    (mp mc : Nat) :
    ∀ l : List KeywordItem, fetch_all_go asrc mp mc l =
      l.flatMap (fun item => (fetch_pages (asrc item) mp mc).1) := by
  intro l
  induction l with
  | nil => rfl
  | cons a t ih => simp [fetch_all_go, ih]

/-- The keyword item of the Kasigau diagnostic, with its developer. -/
def itemK : KeywordItem := ⟨"Kasigau", some "Wildlife Works"⟩

/-- A keyword item with no developer. -/
def itemW : KeywordItem := ⟨"carbon registry", none⟩

/-- C9: the raw aggregate of the fetch loop is the in-order concatenation
of the per-item page results, with no deduplication applied inside it, so
cross-item and cross-page duplicates survive.  Concretely, a source
serving the same article to two items yields it twice, and only the
separate downstream dedup step collapses the aggregate. -/
theorem fetch_all_aggregate (asrc : KeywordItem → Nat → Option (List Article))
    (items : List KeywordItem) (mk mp mc : Nat) :
    fetch_all asrc items mk mp mc =
      (items.take mk).flatMap (fun item => (fetch_pages (asrc item) mp mc).1) ∧
    fetch_all (fun _ _ => some [artA]) [itemK, itemW] 50 1 5 = [artA, artA] ∧
    dedupe (fetch_all (fun _ _ => some [artA]) [itemK, itemW] 50 1 5) = [artA] :=
  ⟨fetch_all_go_eq_flatMap asrc mp mc (items.take mk), by decide, by decide⟩

theorem summarize_batch_length (model : String → Except String (Option String))
    (group : List Article) (sentences : Nat) :
    (summarize_batch model group sentences).length = group.length := by
  cases hm : model (build_prompt group sentences) with
  | error e =>
    simp only [summarize_batch, hm]
    simp
  | ok content =>
    simp only [summarize_batch, hm]
    simp only [List.length_take, List.length_append, List.length_replicate]
    omega

theorem summarize_batch_error (e : String) (group : List Article) (sentences : Nat) :
    summarize_batch (fun _ => Except.error e) group sentences =
      List.replicate group.length ("Summary unavailable: " ++ e.take 50) := by
  simp only [summarize_batch]
  exact List.map_const' group _

theorem batch_summarize_length (model : String → Except String (Option String))
    (sentences : Nat) :
    ∀ fuel (articles : List Article), articles.length ≤ fuel →
      (batch_summarize model articles sentences).length = articles.length := by
  intro fuel
  induction fuel with
  | zero =>
    intro arts h
    have hnil : arts = [] := List.length_eq_zero.mp (by omega)
    subst hnil
    simp [batch_summarize]
  | succ n ihn =>
    intro arts h
    cases arts with
    | nil => simp [batch_summarize]
    | cons a rest =>
      rw [batch_summarize, List.length_append, summarize_batch_length,
        ihn _ (by simp only [List.length_drop, List.length_cons] at h ⊢; omega)]
      simp only [List.length_take, List.length_drop, List.length_cons]
      omega

theorem batch_summarize_error (sentences : Nat) (e : String) :
    ∀ fuel (articles : List Article), articles.length ≤ fuel →
      batch_summarize (fun _ => Except.error e) articles sentences =
        List.replicate articles.length ("Summary unavailable: " ++ e.take 50) := by
  intro fuel
  induction fuel with
  | zero =>
    intro arts h
    have hnil : arts = [] := List.length_eq_zero.mp (by omega)
    subst hnil
    simp [batch_summarize]
  | succ n ihn =>
    intro arts h
    cases arts with
    | nil => simp [batch_summarize]
    | cons a rest =>
      rw [batch_summarize, summarize_batch_error,
        ihn _ (by simp only [List.length_drop, List.length_cons] at h ⊢; omega), ← List.replicate_add]
      congr 1
      simp only [List.length_take, List.length_drop, List.length_cons]
      omega

/-- C3: `batch_summarize` always emits exactly one summary per input
article, whatever the model does and whatever the sentence count, on
every input length (0, 1, 5, 7 included): per batch of 5 a parse
shortfall is padded with the fixed placeholder and extras are truncated;
and when the model call raises, every article of the affected batch gets
the error-excerpt placeholder instead of the run aborting. -/
theorem batch_summarize_spec (model : String → Except String (Option String))
    (articles : List Article) (sentences : Nat) :
    (batch_summarize model articles sentences).length = articles.length ∧
    ∀ e : String, batch_summarize (fun _ => Except.error e) articles sentences =
      List.replicate articles.length ("Summary unavailable: " ++ e.take 50) :=
  ⟨batch_summarize_length model sentences articles.length articles (Nat.le_refl _),
   fun e => batch_summarize_error sentences e articles.length articles (Nat.le_refl _)⟩

end EarthlyNews
